import Mathlib

/-!
Shallow embedding of the go-iterator library (github.com/polyfloyd/go-iterator).

Each Go iterator implementation is modelled as a state type together with a
transition function mirroring its `Next` method: a call to `Next` on a state
`s` returns the optional item (`none` models `ok = false`) and the successor
state.  Methods whose body is a loop over upstream pulls (`Filter.Next`,
`Flatten.Next`, `ToSlice`, `Reduce`, `Count`, ...) are modelled as fueled
functions returning `Option`: a `none` result means the fuel ran out before
the Go loop finished, so every theorem about them quantifies over (or
supplies) sufficient fuel.  Go `int` is modelled as `Int`: the library's
own `int` arithmetic (the `take` allowance decrement and the count
increments) is guarded by comparisons before every operation and cannot
overflow, but the generic numeric arithmetic inside the `Range` iterator
can, so its `start += step` update is modelled with explicit
two's-complement wrapping (`wrapInt`), parametric in the bit width `W` of
the instantiating signed integer type (unsigned instantiations wrap
analogously; floating-point instantiations are outside this model).
-/

namespace GoIter

/-- Type of the `Next` method of `Iterator[T]` (src/iterator.go): a pull
returns the optional item together with the mutated receiver state. -/
abbrev NextFn (σ α : Type) : Type := σ → Option α × σ

/-- State transition of `emptyIterator.Next` (src/iterator.go): always
returns `zero, false` and keeps no state. -/
def emptyNext {α : Type} : NextFn Unit α := fun s => (none, s)

/-- State transition of `onceIterator.Next` (src/unnamed/part_001): the state
is the `item *T` field; a non-nil item is returned once and the field is set
to nil, afterwards `zero, false`. -/
def onceNext {α : Type} : NextFn (Option α) α := fun s =>
  match s with
  | some a => (some a, none)
  | none => (none, none)

/-- State of `rangeIterator` (src/iterator.go): the fields `start`, `end`,
`step`.  The Go field `end` is a Lean keyword and is called `stop` here. -/
structure RangeSt where
  start : Int
  stop : Int
  step : Int
deriving DecidableEq, Repr

/-- Two's-complement wrap-around of a `W`-bit signed integer: the result of
a Go arithmetic operation on an integer type of width `W`, reduced into the
representable interval `[-2^(W-1), 2^(W-1))`. -/
def wrapInt (W : Nat) (x : Int) : Int :=
  (x + 2 ^ (W - 1)) % 2 ^ W - 2 ^ (W - 1)

/-- State transition of `rangeIterator.Next` (src/iterator.go) at a signed
integer instantiation of width `W`: when `start >= end` return
`zero, false` leaving the state alone, otherwise return `start` and
advance it by `step` with Go's wrapping machine arithmetic
(`iter.start += iter.step`). -/
def rangeNextW (W : Nat) : NextFn RangeSt Int := fun s =>
  if s.start ≥ s.stop then (none, s)
  else (some s.start, ⟨wrapInt W (s.start + s.step), s.stop, s.step⟩)

/-- The constructor `Range` (src/iterator.go): it panics when `end < start`
or `step <= 0`; the panic is modelled as `none`, a successful construction
as `some` of the initial `rangeIterator` state. -/
def Range (start stop step : Int) : Option RangeSt :=
  if stop < start then none
  else if step ≤ 0 then none
  else some ⟨start, stop, step⟩

/-- State transition of `sliceIterator.Next` (src/iterator.go): the state is
the remaining slice; return its head and drop it, or `zero, false` when it
is empty. -/
def sliceNext {α : Type} : NextFn (List α) α := fun s =>
  match s with
  | [] => (none, [])
  | a :: l => (some a, l)

/-- State transition of `channelIterator.Next` (src/iterator.go) for a
channel that has already been closed: the remaining buffered elements are
received in FIFO order, after which the receive reports `ok = false`
forever.  The state is the list of still-buffered elements. -/
def closedChanNext {α : Type} : NextFn (List α) α := fun s =>
  match s with
  | [] => (none, [])
  | a :: l => (some a, l)

/-- The loop of `ToSlice` (src/iterator.go), fueled: pull until `ok` is
false, collecting the items.  Each upstream pull consumes one unit of fuel;
`none` means the fuel ran out before the loop finished. -/
def toSliceF {σ α : Type} (next : NextFn σ α) : Nat → σ → Option (List α × σ)
  | 0, _ => none
  | f + 1, s =>
    match next s with
    | (none, s') => some ([], s')
    | (some a, s') =>
      match toSliceF next f s' with
      | none => none
      | some (l, s'') => some (a :: l, s'')

/-- State transition of `mapIterator.Next` (src/ops.go): pull the upstream
once; on `ok` apply `mapFunc`, otherwise propagate `zero, false`.  The
adapter adds no state of its own, so its state is the upstream state. -/
def mapNext {σ α β : Type} (next : NextFn σ α) (f : α → β) : NextFn σ β := fun s =>
  match next s with
  | (none, s') => (none, s')
  | (some a, s') => (some (f a), s')

/-- The loop of `filterIterator.Next` (src/ops.go), fueled: pull upstream
repeatedly, returning the first item passing `filterFunc`, or `zero, false`
when the upstream is exhausted.  One unit of fuel per upstream pull. -/
def filterNextF {σ α : Type} (next : NextFn σ α) (p : α → Bool) :
    Nat → σ → Option (Option α × σ)
  | 0, _ => none
  | f + 1, s =>
    match next s with
    | (none, s') => some (none, s')
    | (some a, s') => if p a then some (some a, s') else filterNextF next p f s'

/-- The loop of `filterMapIterator.Next` (src/ops.go), fueled: like
`filterNextF` but the function itself decides, returning `(mapped, ok)`,
modelled as `Option β`. -/
def filterMapNextF {σ α β : Type} (next : NextFn σ α) (g : α → Option β) :
    Nat → σ → Option (Option β × σ)
  | 0, _ => none
  | f + 1, s =>
    match next s with
    | (none, s') => some (none, s')
    | (some a, s') =>
      match g a with
      | some b => some (some b, s')
      | none => filterMapNextF next g f s'

/-- State transition of `takeIterator.Next` (src/ops.go): the state pairs
the upstream state with the `num` field (a Go `int`).  When `num <= 0`
return `zero, false` without pulling the upstream; otherwise pull once and
decrement `num` only on `ok`. -/
def takeNext {σ α : Type} (next : NextFn σ α) : NextFn (σ × Int) α := fun st =>
  if st.2 ≤ 0 then (none, st)
  else
    match next st.1 with
    | (some a, s') => (some a, (s', st.2 - 1))
    | (none, s') => (none, (s', st.2))

/-- The loop of `flattenIterator.Next` (src/ops.go), fueled.  The state
pairs the outer iterator state with the optional `head` field (the
currently-active inner iterator produced by `mapFunc`).  Each Go loop
iteration consumes one unit of fuel; within an iteration a nil head is
refilled from the outer iterator (returning `zero, false` when the outer is
exhausted), then the head is pulled once, clearing it again when it is
exhausted. -/
def flattenNextF {σo σi α β : Type} (nextO : NextFn σo β) (mapF : β → σi) (nextI : NextFn σi α) :
    Nat → (σo × Option σi) → Option (Option α × (σo × Option σi))
  | 0, _ => none
  | f + 1, st =>
    match st.2 with
    | none =>
      match nextO st.1 with
      | (none, so') => some (none, (so', none))
      | (some b, so') =>
        match nextI (mapF b) with
        | (some a, h') => some (some a, (so', some h'))
        | (none, _) => flattenNextF nextO mapF nextI f (so', none)
    | some h =>
      match nextI h with
      | (some a, h') => some (some a, (st.1, some h'))
      | (none, _) => flattenNextF nextO mapF nextI f (st.1, none)

/-- Drains next s l s' holds when repeatedly calling `Next` starting from
state `s` yields exactly the items `l` and then reports `ok = false` for the
first time, leaving the iterator in state `s'`.  This is "pulling to
exhaustion" in the specification. -/
inductive Drains {σ α : Type} (next : NextFn σ α) : σ → List α → σ → Prop where
  | nil : ∀ {s s' : σ}, next s = (none, s') → Drains next s [] s'
  | cons : ∀ {s : σ} {a : α} {s' : σ} {l : List α} {s'' : σ},
      next s = (some a, s') → Drains next s' l s'' → Drains next s (a :: l) s''

/-- One step of state evolution: the state after one `Next` call. -/
def stepSt {σ α : Type} (next : NextFn σ α) (s : σ) : σ := (next s).2

/-- Absent next s: every `Next` call from `s` on reports `ok = false`,
however often the caller keeps polling.  This is the specification's
"permanently absent / exhausted" condition. -/
def Absent {σ α : Type} (next : NextFn σ α) (s : σ) : Prop :=
  ∀ k : Nat, (next ((stepSt next)^[k] s)).1 = none

/-- Sticky next: whenever a `Next` call reports `ok = false`, the very next
call does so as well.  Iterated, this is the spec's "exhaustion is sticky". -/
def Sticky {σ α : Type} (next : NextFn σ α) : Prop :=
  ∀ s s', next s = (none, s') → (next s').1 = none

/-- Instrumentation wrapper (not part of the library): behaves exactly like
the wrapped `Next` but counts how often it is called, so that theorems can
speak about the number of upstream pulls an adapter performs. -/
def countingNext {σ α : Type} (next : NextFn σ α) : NextFn (σ × Nat) α := fun st =>
  ((next st.1).1, ((next st.1).2, st.2 + 1))

/-- FDrains nextF s l s' is the analogue of `Drains` for fueled transition
functions: pulling to exhaustion from `s` yields `l` and ends in `s'`, each
call being given some sufficient fuel (the Go loop terminates on it). -/
inductive FDrains {σ α : Type} (nextF : Nat → σ → Option (Option α × σ)) :
    σ → List α → σ → Prop where
  | nil : ∀ {s s' : σ}, (∃ f : Nat, nextF f s = some (none, s')) → FDrains nextF s [] s'
  | cons : ∀ {s : σ} {a : α} {s' : σ} {l : List α} {s'' : σ},
      (∃ f : Nat, nextF f s = some (some a, s')) → FDrains nextF s' l s'' →
      FDrains nextF s (a :: l) s''

/-- The loop of `Reduce` (src/ops.go), fueled: pull every element and
combine it into the accumulator in encounter order; return the final
accumulator (together with the final state).  One unit of fuel per
upstream pull. -/
def reduceF {σ α γ : Type} (next : NextFn σ α) (g : γ → α → γ) :
    γ → Nat → σ → Option (γ × σ)
  | _, 0, _ => none
  | accum, f + 1, s =>
    match next s with
    | (none, s') => some (accum, s')
    | (some a, s') => reduceF next g (g accum a) f s'

/-- The body of `Min` (src/ops.go): prime the accumulator from the first
pulled element (reporting `ok = false` for an empty iterator), then
`Reduce` with the smaller-of-two combining function. -/
def minF {σ α : Type} [LinearOrder α] (next : NextFn σ α) (f : Nat) (s : σ) :
    Option (Option α × σ) :=
  match next s with
  | (none, s') => some (none, s')
  | (some init, s') =>
    match reduceF next (fun accum item => if item < accum then item else accum) init f s' with
    | none => none
    | some (m, s'') => some (some m, s'')

/-- The body of `Max` (src/ops.go): like `Min` with the greater-of-two
combining function. -/
def maxF {σ α : Type} [LinearOrder α] (next : NextFn σ α) (f : Nat) (s : σ) :
    Option (Option α × σ) :=
  match next s with
  | (none, s') => some (none, s')
  | (some init, s') =>
    match reduceF next (fun accum item => if item > accum then item else accum) init f s' with
    | none => none
    | some (m, s'') => some (some m, s'')

/-- A Go map value, modelled as a partial function from keys to values, and
the assignment `out[item.Key] = item.Val` from `ToMap`
(src/unnamed/part_001): later assignments overwrite earlier ones. -/
def mapUpd {κ ν : Type} [DecidableEq κ] (m : κ → Option ν) (k : κ) (v : ν) : κ → Option ν :=
  fun q => if q = k then some v else m q

/-- The loop of `ToMap` (src/unnamed/part_001), fueled: pull every
`MapEntry` (modelled as a pair) and assign it into the accumulated map,
which starts out empty at the call site. -/
def toMapF {σ κ ν : Type} [DecidableEq κ] (next : NextFn σ (κ × ν)) :
    (κ → Option ν) → Nat → σ → Option ((κ → Option ν) × σ)
  | _, 0, _ => none
  | m, f + 1, s =>
    match next s with
    | (none, s') => some (m, s')
    | (some e, s') => toMapF next (mapUpd m e.1 e.2) f s'

/-- Body of `mapIterator.Count` (src/unnamed/part_001): it returns
`Count(iter.from)`.  The dynamic dispatch of the generic `Count` on the
upstream (use its `Counter` implementation when present, otherwise drain
and count) is abstracted as the given function `upCount`; the map adapter
itself adds nothing. -/
def mapCount {σ : Type} (upCount : σ → Int × σ) : σ → Int × σ := fun s => upCount s

/-- The `Sum(Map(iter.from, Count))` loop inside `flattenIterator.Count`
(src/unnamed/part_001), fueled: pull the outer iterator to exhaustion,
adding `Count(item)` (abstracted as `cntI`, the dispatched generic `Count`
for inner iterators) of each yielded inner iterator to the accumulator.
In this variant of `Flatten` the outer iterator yields the inner iterators
themselves. -/
def flattenSumCountsF {σo σi : Type} (nextO : NextFn σo σi) (cntI : σi → Int × σi) :
    Int → Nat → σo → Option (Int × σo)
  | _, 0, _ => none
  | accum, f + 1, so =>
    match nextO so with
    | (none, so') => some (accum, so')
    | (some h, so') => flattenSumCountsF nextO cntI (accum + (cntI h).1) f so'

/-- Body of `flattenIterator.Count` (src/unnamed/part_001): sum the counts
of all inner iterators still to be produced by the outer iterator, then add
the count of the currently-active `head` if there is one (the exhausted
head stays installed; the outer iterator ends fully consumed). -/
def flattenCountF {σo σi : Type} (nextO : NextFn σo σi) (cntI : σi → Int × σi) (f : Nat)
    (st : σo × Option σi) : Option (Int × (σo × Option σi)) :=
  match flattenSumCountsF nextO cntI 0 f st.1 with
  | none => none
  | some (c, so') =>
    match st.2 with
    | none => some (c, (so', none))
    | some h => some (c + (cntI h).1, (so', some (cntI h).2))

/-- The fallback loop of `takeIterator.Count` (src/unnamed/part_001), used
when the upstream does not implement `Counter`:
`for _, ok := iter.from.Next(); ok && count < iter.num; _, ok = iter.from.Next() { count++ }`.
Note the loop pulls first and only then consults `count < num`, so it
terminates after at most `num` increments regardless of the upstream. -/
def takeCountLoop {σ α : Type} (next : NextFn σ α) (num count : Int) (s : σ) : Int × σ :=
  match next s with
  | (none, s') => (count, s')
  | (some _, s') =>
    if h : count < num then takeCountLoop next num (count + 1) s' else (count, s')
termination_by (num - count).toNat
decreasing_by
  simp_wf
  omega

/-- Body of `takeIterator.Count` (src/unnamed/part_001) when the upstream
does not implement `Counter`: run the fallback loop from `count = 0`, clamp
the result to `num`, set `num` to 0 (exhausting the adapter) and return the
clamped count. -/
def takeCountFallback {σ α : Type} (next : NextFn σ α) (st : σ × Int) : Int × (σ × Int) :=
  let r := takeCountLoop next st.2 0 st.1
  let count := if st.2 < r.1 then st.2 else r.1
  (count, (r.2, 0))

/-- Body of `takeIterator.Count` (src/unnamed/part_001) when the upstream
implements `Counter`: use `counter.Count()` (abstracted as `upCount`),
clamp to `num`, set `num` to 0 and return the clamped count. -/
def takeCountCounter {σ : Type} (upCount : σ → Int × σ) (st : σ × Int) : Int × (σ × Int) :=
  let r := upCount st.1
  let count := if st.2 < r.1 then st.2 else r.1
  (count, (r.2, 0))

/-- FlatDead describes a flatten state that can never again yield an
element: the outer iterator is permanently absent, and so is the installed
head if there is one. -/
def FlatDead {σo σi α : Type} (nextO : NextFn σo σi) (nextI : NextFn σi α)
    (st : σo × Option σi) : Prop :=
  Absent nextO st.1 ∧ ∀ h : σi, st.2 = some h → Absent nextI h

theorem sticky_absent {σ α : Type} {next : NextFn σ α} (h : Sticky next)
    {s : σ} (h0 : (next s).1 = none) : Absent next s := by
  intro k
  induction k generalizing s with
  | zero => simpa using h0
  | succ k ih =>
    rw [Function.iterate_succ_apply]
    exact ih (h s (stepSt next s) (by rw [← h0]; rfl))

theorem absent_step {σ α : Type} {next : NextFn σ α} {s : σ}
    (h : Absent next s) : Absent next (stepSt next s) := by
  intro k
  have := h (k + 1)
  rwa [Function.iterate_succ_apply] at this

theorem drains_slice {α : Type} (xs : List α) : Drains sliceNext xs xs [] := by
  induction xs with
  | nil => exact Drains.nil rfl
  | cons a l ih => exact Drains.cons rfl ih

theorem toSliceF_complete {σ α : Type} {next : NextFn σ α} {s : σ} {l : List α} {s' : σ}
    (h : Drains next s l s') : ∀ f : Nat, l.length + 1 ≤ f → toSliceF next f s = some (l, s') := by
  induction h with
  | nil hs =>
    intro f hf
    match f, hf with
    | g + 1, _ => simp [toSliceF, hs]
  | cons hs _ ih =>
    intro f hf
    match f, hf with
    | g + 1, hf =>
      have := ih g (by simpa using Nat.lt_succ_iff.mp (Nat.lt_of_lt_of_le (by simp) hf))
      simp [toSliceF, hs, this]

/-- C8: for every finite iterator, collecting its elements with `ToSlice`
and wrapping the resulting slice with `FromSlice` yields an iterator that
reproduces exactly the same elements in the same order; in particular
`ToSlice(FromSlice(xs)) = xs` for every slice `xs`. -/
theorem toSlice_fromSlice_roundtrip :
    (∀ (σ α : Type) (next : NextFn σ α) (s : σ) (l : List α) (s' : σ) (f : Nat),
        Drains next s l s' → l.length + 1 ≤ f → toSliceF next f s = some (l, s')) ∧
    (∀ (α : Type) (xs : List α),
        Drains (@sliceNext α) xs xs [] ∧
          toSliceF (@sliceNext α) (xs.length + 1) xs = some (xs, [])) := by
  constructor
  · intro σ α next s l s' f h hf
    exact toSliceF_complete h f hf
  · intro α xs
    exact ⟨drains_slice xs, toSliceF_complete (drains_slice xs) _ (Nat.le_refl _)⟩

/-- Witness for C8 at a concrete input: collecting the three-element slice
iterator yields the original slice back. -/
theorem toSlice_fromSlice_roundtrip_witness :
    toSliceF (@sliceNext Nat) 4 [1, 2, 3] = some ([1, 2, 3], []) :=
  toSlice_fromSlice_roundtrip.1 (List Nat) Nat sliceNext [1, 2, 3] [1, 2, 3] [] 4
    (drains_slice [1, 2, 3]) (by decide)

theorem wrapInt_eq_self {W : Nat} {x : Int} (hW : 0 < W) (h1 : -(2 ^ (W - 1)) ≤ x)
    (h2 : x ≤ 2 ^ (W - 1) - 1) : wrapInt W x = x := by
  unfold wrapInt
  have hpow : (2 : Int) ^ W = 2 ^ (W - 1) * 2 := by
    match W, hW with
    | W' + 1, _ =>
      have hW' : W' + 1 - 1 = W' := rfl
      rw [hW', pow_succ]
  have hM : (0 : Int) < 2 ^ (W - 1) := by positivity
  rw [Int.emod_eq_of_lt (by linarith) (by linarith)]
  ring

theorem range_drains_wrap_aux (W : Nat) (stop step : Int) (hW : 0 < W) (hstep : 0 < step) :
    ∀ (n : Nat) (start : Int), (stop - start).toNat ≤ n →
      -(2 ^ (W - 1)) ≤ start →
      (∀ k : Nat, start + k * step < stop → start + (k + 1) * step ≤ 2 ^ (W - 1) - 1) →
      ∃ (N : Nat) (s' : RangeSt),
        Drains (rangeNextW W) ⟨start, stop, step⟩
            ((List.range N).map (fun k : Nat => start + k * step)) s' ∧
          (∀ k : Nat, k < N → start + k * step < stop) ∧ stop ≤ start + N * step := by
  intro n
  induction n with
  | zero =>
    intro start h _ _
    have hle : stop ≤ start := by omega
    refine ⟨0, ⟨start, stop, step⟩, ?_, by omega, by simpa using hle⟩
    exact Drains.nil (by simp [rangeNextW, hle])
  | succ n ih =>
    intro start h hlo hov
    by_cases hlt : start < stop
    · have hov0 : start + step ≤ 2 ^ (W - 1) - 1 := by
        have := hov 0 (by simpa using hlt)
        simpa using this
      have hlo' : -(2 ^ (W - 1)) ≤ start + step := by linarith
      have hov' : ∀ k : Nat, (start + step) + (k : Int) * step < stop →
          (start + step) + ((k + 1 : Nat) : Int) * step ≤ 2 ^ (W - 1) - 1 := by
        intro k hk
        have heqh : start + ((k + 1 : Nat) : Int) * step = (start + step) + (k : Int) * step := by
          push_cast
          ring
        have heqc : start + ((k + 1 + 1 : Nat) : Int) * step
            = (start + step) + ((k + 1 : Nat) : Int) * step := by
          push_cast
          ring
        have h1 := hov (k + 1) (by rw [heqh]; exact hk)
        rw [← heqc]
        exact h1
      obtain ⟨N, s', h1, h2, h3⟩ := ih (start + step) (by omega) hlo' hov'
      have hlist : (List.range (N + 1)).map (fun k : Nat => start + k * step)
          = start :: (List.range N).map (fun k : Nat => (start + step) + k * step) := by
        rw [List.range_succ_eq_map, List.map_cons, List.map_map]
        refine congrArg₂ _ (by simp) (List.map_congr_left ?_)
        intro k _
        simp only [Function.comp_apply]
        push_cast
        ring
      refine ⟨N + 1, s', ?_, ?_, ?_⟩
      · rw [hlist]
        exact Drains.cons
          (by simp [rangeNextW, not_le.mpr hlt, wrapInt_eq_self hW hlo' hov0]) h1
      · intro k hk
        cases k with
        | zero => simpa using hlt
        | succ j =>
          have hj := h2 j (by omega)
          have heq : start + ((j + 1 : Nat) : Int) * step = (start + step) + (j : Int) * step := by
            push_cast
            ring
          rw [heq]
          exact hj
      · have heq : start + ((N + 1 : Nat) : Int) * step = (start + step) + (N : Int) * step := by
          push_cast
          ring
        rw [heq]
        exact h3
    · have hle : stop ≤ start := by omega
      refine ⟨0, ⟨start, stop, step⟩, ?_, by omega, by simpa using hle⟩
      exact Drains.nil (by simp [rangeNextW, hle])

/-- C6 (amended): `Range(start, end, step)` fails at construction (modelled
as `none`) exactly when `end < start` or `step <= 0`, with no check
deferred to the first pull; for every valid `start <= end` and `step > 0`
at a signed `W`-bit instantiation with representable parameters, provided
no increment performed while the running value is still below `end`
overflows (`start + (k+1)*step` stays representable whenever
`start + k*step < end`), the iterator drains to `start, start+step,
start+2*step, ...` covering precisely the values strictly below `end`.
Amendment forced by the counterexample: with Go's wrapping machine
arithmetic, a valid range whose increment overflows before the bound is
reached yields wrapped values outside this progression. -/
theorem range_fail_fast :
    (∀ start stop step : Int, Range start stop step = none ↔ (stop < start ∨ step ≤ 0)) ∧
    (∀ (W : Nat) (start stop step : Int), 0 < W →
      -(2 ^ (W - 1)) ≤ start → start ≤ 2 ^ (W - 1) - 1 →
      -(2 ^ (W - 1)) ≤ stop → stop ≤ 2 ^ (W - 1) - 1 →
      -(2 ^ (W - 1)) ≤ step → step ≤ 2 ^ (W - 1) - 1 →
      start ≤ stop → 0 < step →
      (∀ k : Nat, start + k * step < stop → start + (k + 1) * step ≤ 2 ^ (W - 1) - 1) →
      Range start stop step = some ⟨start, stop, step⟩ ∧
      ∃ (N : Nat) (s' : RangeSt),
        Drains (rangeNextW W) ⟨start, stop, step⟩
            ((List.range N).map (fun k : Nat => start + k * step)) s' ∧
          (∀ k : Nat, k < N → start + k * step < stop) ∧ stop ≤ start + N * step) := by
  constructor
  · intro start stop step
    unfold Range
    split_ifs with h1 h2
    · simp [h1]
    · simp [h1, h2]
    · simp
      omega
  · intro W start stop step hW hlo hhi _ _ _ _ hse hstep hov
    constructor
    · unfold Range
      split_ifs with h1 h2
      · omega
      · omega
      · rfl
    · exact range_drains_wrap_aux W stop step hW hstep _ start (Nat.le_refl _) hlo hov

/-- Counterexample to C6 as stated: at the `int8` instantiation (`W = 8`),
`Range(122, 127, 10)` passes both construction checks, yet the second pull
yields the wrapped value `-124`, which is not of the form `start + k*step`
for any `k` — the iterator does not yield the claimed arithmetic
progression of values strictly below `end` (it keeps yielding wrapped
values; its running value stays even while the only exhausting value, 127,
is odd, so it never exhausts). -/
theorem range_fail_fast_counterexample :
    Range 122 127 10 = some ⟨122, 127, 10⟩ ∧
    rangeNextW 8 ⟨122, 127, 10⟩ = (some 122, ⟨-124, 127, 10⟩) ∧
    rangeNextW 8 ⟨-124, 127, 10⟩ = (some (-124), ⟨-114, 127, 10⟩) ∧
    ∀ k : Nat, (122 : Int) + k * 10 ≠ -124 := by
  refine ⟨by decide, by decide, by decide, ?_⟩
  intro k
  omega

/-- Witness for C6 at concrete inputs: `Range 0 5 1` constructs the
iterator and, at width 8 where nothing overflows, drains to the
progression below 5; `Range 4 0 1` (end before start) fails at
construction. -/
theorem range_fail_fast_witness :
    (Range 0 5 1 = some ⟨0, 5, 1⟩ ∧
      ∃ (N : Nat) (s' : RangeSt),
        Drains (rangeNextW 8) ⟨0, 5, 1⟩
            ((List.range N).map (fun k : Nat => 0 + k * 1)) s' ∧
          (∀ k : Nat, k < N → (0 : Int) + k * 1 < 5) ∧ (5 : Int) ≤ 0 + N * 1) ∧
    Range 4 0 1 = none :=
  ⟨range_fail_fast.2 8 0 5 1 (by decide) (by decide) (by decide) (by decide) (by decide)
      (by decide) (by decide) (by decide) (by decide) (fun k hk => by omega),
    (range_fail_fast.1 4 0 1).mpr (by decide)⟩

theorem sticky_sliceNext {α : Type} : Sticky (@sliceNext α) := by
  intro s s' h
  cases s <;> simp_all [sliceNext]

theorem filterNextF_none_last {σ α : Type} {next : NextFn σ α} {p : α → Bool} :
    ∀ {f : Nat} {s s' : σ}, filterNextF next p f s = some (none, s') →
      ∃ s0 : σ, next s0 = (none, s') := by
  intro f
  induction f with
  | zero => intro s s' h; simp [filterNextF] at h
  | succ f ih =>
    intro s s' h
    rcases hns : next s with ⟨o, s1⟩
    cases o with
    | none =>
      rw [filterNextF, hns] at h
      simp at h
      exact ⟨s, by rw [hns, h]⟩
    | some a =>
      rw [filterNextF, hns] at h
      by_cases hp : p a
      · simp [hp] at h
      · simp [hp] at h
        exact ih h

theorem filterMapNextF_none_last {σ α β : Type} {next : NextFn σ α} {g : α → Option β} :
    ∀ {f : Nat} {s s' : σ}, filterMapNextF next g f s = some (none, s') →
      ∃ s0 : σ, next s0 = (none, s') := by
  intro f
  induction f with
  | zero => intro s s' h; simp [filterMapNextF] at h
  | succ f ih =>
    intro s s' h
    rcases hns : next s with ⟨o, s1⟩
    cases o with
    | none =>
      rw [filterMapNextF, hns] at h
      simp at h
      exact ⟨s, by rw [hns, h]⟩
    | some a =>
      rw [filterMapNextF, hns] at h
      rcases hg : g a with _ | b
      · simp only [hg] at h
        exact ih h
      · simp only [hg] at h
        simp at h

theorem flattenNextF_none_last {σo σi α β : Type} {nextO : NextFn σo β} {mapF : β → σi}
    {nextI : NextFn σi α} :
    ∀ {f : Nat} {st st' : σo × Option σi},
      flattenNextF nextO mapF nextI f st = some (none, st') →
      st'.2 = none ∧ ∃ so0 : σo, nextO so0 = (none, st'.1) := by
  intro f
  induction f with
  | zero => intro st st' h; simp [flattenNextF] at h
  | succ f ih =>
    intro st st' h
    rw [flattenNextF] at h
    rcases st with ⟨so, oh⟩
    rcases oh with _ | h0
    · rcases hno : nextO so with ⟨ob, so'⟩
      cases ob with
      | none =>
        rw [hno] at h
        have h' : (so', (none : Option σi)) = st' := by simpa using h
        subst h'
        exact ⟨rfl, so, by simpa using hno⟩
      | some b =>
        rw [hno] at h
        rcases hni : nextI (mapF b) with ⟨oa, h'⟩
        cases oa with
        | none => simp only [hni] at h; exact ih h
        | some a => simp only [hni] at h; simp at h
    · rcases hni : nextI h0 with ⟨oa, h'⟩
      cases oa with
      | none => simp only [hni] at h; exact ih h
      | some a => simp only [hni] at h; simp at h

/-- C3: exhaustion is sticky for every iterator of the library.  The base
constructors (`Empty`, `Range`, `FromSlice`, `Once`, `FromChannel` over a
closed channel) are one-step sticky outright; each adapter (`Map`,
`Filter`, `FilterMap`, `Flatten`, `Take`) preserves stickiness of its
upstream(s), so by structural composition every iterator built from them is
sticky.  For the loop-based adapters the clause states: once a (genuinely
terminating) call reports `ok = false`, every later call with any
sufficient fuel reports `ok = false` again, from a state of the same
shape, so the argument iterates forever. -/
theorem exhaustion_sticky :
    (∀ α : Type, Sticky (@emptyNext α)) ∧
    (∀ W : Nat, Sticky (rangeNextW W)) ∧
    (∀ α : Type, Sticky (@sliceNext α)) ∧
    (∀ α : Type, Sticky (@onceNext α)) ∧
    (∀ α : Type, Sticky (@closedChanNext α)) ∧
    (∀ (σ α β : Type) (next : NextFn σ α) (f : α → β), Sticky next → Sticky (mapNext next f)) ∧
    (∀ (σ α : Type) (next : NextFn σ α) (p : α → Bool), Sticky next →
      ∀ (f : Nat) (s s' : σ), filterNextF next p f s = some (none, s') →
        ∀ g : Nat, 1 ≤ g → filterNextF next p g s' = some (none, stepSt next s')) ∧
    (∀ (σ α β : Type) (next : NextFn σ α) (gm : α → Option β), Sticky next →
      ∀ (f : Nat) (s s' : σ), filterMapNextF next gm f s = some (none, s') →
        ∀ g : Nat, 1 ≤ g → filterMapNextF next gm g s' = some (none, stepSt next s')) ∧
    (∀ (σo σi α β : Type) (nextO : NextFn σo β) (mapF : β → σi) (nextI : NextFn σi α),
      Sticky nextO →
      ∀ (f : Nat) (st st' : σo × Option σi),
        flattenNextF nextO mapF nextI f st = some (none, st') →
        ∀ g : Nat, 1 ≤ g →
          flattenNextF nextO mapF nextI g st' = some (none, (stepSt nextO st'.1, none))) ∧
    (∀ (σ α : Type) (next : NextFn σ α), Sticky next → Sticky (takeNext next)) := by
  refine ⟨?_, ?_, ?_, ?_, ?_, ?_, ?_, ?_, ?_, ?_⟩
  · intro α s s' _
    rfl
  · intro W s s' h
    unfold rangeNextW at h ⊢
    split_ifs at h with hc
    · injection h with h1 h2
      subst h2
      rw [if_pos hc]
    · simp at h
  · intro α
    exact sticky_sliceNext
  · intro α s s' h
    cases s with
    | none =>
      have h' : (none : Option α) = s' := by simpa [onceNext] using h
      subst h'
      rfl
    | some a => simp [onceNext] at h
  · intro α s s' h
    cases s <;> simp_all [closedChanNext]
  · intro σ α β next f hst s s' h
    unfold mapNext at h ⊢
    rcases hns : next s with ⟨o, s1⟩
    cases o with
    | none =>
      rw [hns] at h
      have h' : s1 = s' := by simpa using h
      subst h'
      have h2 : (next s1).1 = none := hst s s1 hns
      rcases hns' : next s1 with ⟨o', s2⟩
      cases o' with
      | none => rfl
      | some a =>
        rw [hns'] at h2
        simp at h2
    | some a =>
      rw [hns] at h
      simp at h
  · intro σ α next p hst f s s' h g hg
    obtain ⟨s0, hs0⟩ := filterNextF_none_last h
    have h1 : (next s').1 = none := hst s0 s' hs0
    have hnn : next s' = (none, (next s').2) := by
      rw [← h1]
    match g, hg with
    | g' + 1, _ =>
      rw [filterNextF, hnn]
      rfl
  · intro σ α β next gm hst f s s' h g hg
    obtain ⟨s0, hs0⟩ := filterMapNextF_none_last h
    have h1 : (next s').1 = none := hst s0 s' hs0
    have hnn : next s' = (none, (next s').2) := by
      rw [← h1]
    match g, hg with
    | g' + 1, _ =>
      rw [filterMapNextF, hnn]
      rfl
  · intro σo σi α β nextO mapF nextI hst f st st' h g hg
    obtain ⟨hhd, so0, hso0⟩ := flattenNextF_none_last h
    have h1 : (nextO st'.1).1 = none := hst so0 st'.1 hso0
    have hnn : nextO st'.1 = (none, (nextO st'.1).2) := by
      rw [← h1]
    match g, hg with
    | g' + 1, _ =>
      rw [flattenNextF, hhd, hnn]
      rfl
  · intro σ α next hst st st' h
    unfold takeNext at h ⊢
    by_cases hn : st.2 ≤ 0
    · rw [if_pos hn] at h
      injection h with h1 h2
      subst h2
      rw [if_pos hn]
    · rw [if_neg hn] at h
      rcases hns : next st.1 with ⟨o, s1⟩
      cases o with
      | none =>
        rw [hns] at h
        have h' : (s1, st.2) = st' := by simpa using h
        subst h'
        rw [if_neg (by simpa using hn)]
        have h2 : (next s1).1 = none := hst st.1 s1 hns
        rcases hns' : next s1 with ⟨o', s2⟩
        cases o' with
        | none => rfl
        | some a =>
          rw [hns'] at h2
          simp at h2
      | some a =>
        rw [hns] at h
        simp at h

/-- Witness for C3 at a concrete input: `Take` over an exhausted slice
iterator keeps reporting absent. -/
theorem exhaustion_sticky_witness :
    (takeNext (@sliceNext Nat) ([], 2)).1 = none := by
  have h := exhaustion_sticky.2.2.2.2.2.2.2.2.2 (List Nat) Nat sliceNext sticky_sliceNext
    ([], 2) ([], 2) (by decide)
  exact h


theorem takeNext_nonpos {σ α : Type} (next : NextFn σ α) (s : σ) (num : Int)
    (h : num ≤ 0) : takeNext next (s, num) = (none, (s, num)) := by
  unfold takeNext
  rw [if_pos h]

theorem takeNext_nonpos_absent {σ α : Type} (next : NextFn σ α) (s : σ) (num : Int)
    (h : num ≤ 0) : Absent (takeNext next) (s, num) := by
  have hfix : stepSt (takeNext next) (s, num) = (s, num) := by
    rw [stepSt, takeNext_nonpos next s num h]
  intro k
  rw [Function.iterate_fixed hfix k, takeNext_nonpos next s num h]

theorem take_drains_counting {σ α : Type} (next : NextFn σ α) :
    ∀ (n : Nat) (l : List α) (s s_e : σ) (c0 : Nat), Drains next s l s_e → n ≤ l.length →
      ∃ s_n : σ, Drains (takeNext (countingNext next)) (((s, c0), (n : Int)))
        (l.take n) (((s_n, c0 + n), 0)) := by
  intro n
  induction n with
  | zero =>
    intro l s s_e c0 _ _
    refine ⟨s, ?_⟩
    simpa using Drains.nil (takeNext_nonpos (countingNext next) (s, c0) 0 (le_refl 0))
  | succ n ih =>
    intro l s s_e c0 hdr hlen
    cases l with
    | nil => simp at hlen
    | cons a l' =>
      obtain ⟨s1, hs, hrest⟩ : ∃ sm, next s = (some a, sm) ∧ Drains next sm l' s_e := by
        cases hdr with
        | cons hs hrest => exact ⟨_, hs, hrest⟩
      obtain ⟨s_n, hn⟩ := ih l' s1 s_e (c0 + 1) hrest (by simpa using hlen)
      refine ⟨s_n, ?_⟩
      have hstep : takeNext (countingNext next) (((s, c0), ((n + 1 : Nat) : Int)))
          = (some a, ((s1, c0 + 1), (n : Int))) := by
        unfold takeNext
        rw [if_neg (by push_cast; omega)]
        simp only [countingNext, hs]
        have harith : ((n + 1 : Nat) : Int) - 1 = (n : Int) := by push_cast; ring
        rw [harith]
      have hcnt : c0 + 1 + n = c0 + (n + 1) := by omega
      rw [List.take_succ_cons]
      rw [hcnt] at hn
      exact Drains.cons hstep hn

/-- C4: `Take` with `n <= 0` reports absent immediately and forever without
touching its upstream (the whole state, upstream pull-count included, is
unchanged); for `n > 0` over an upstream with at least `n` elements,
draining `Take(upstream, n)` yields exactly the first `n` upstream elements
in order, invokes the upstream `Next` exactly `n` times (the instrumented
pull counter ends at `n`), and the iterator is permanently absent
afterwards. -/
theorem take_yields_prefix :
    (∀ (σ α : Type) (next : NextFn σ α) (s : σ) (num : Int), num ≤ 0 →
      takeNext next (s, num) = (none, (s, num)) ∧ Absent (takeNext next) (s, num)) ∧
    (∀ (σ α : Type) (next : NextFn σ α) (s s_e : σ) (l : List α) (n : Nat),
      Drains next s l s_e → 0 < n → n ≤ l.length →
      ∃ s_n : σ, Drains (takeNext (countingNext next)) (((s, 0), (n : Int)))
          (l.take n) (((s_n, n), 0)) ∧
        Absent (takeNext (countingNext next)) (((s_n, n), 0))) := by
  constructor
  · intro σ α next s num h
    exact ⟨takeNext_nonpos next s num h, takeNext_nonpos_absent next s num h⟩
  · intro σ α next s s_e l n hdr _ hlen
    obtain ⟨s_n, hn⟩ := take_drains_counting next n l s s_e 0 hdr hlen
    rw [Nat.zero_add] at hn
    exact ⟨s_n, hn, takeNext_nonpos_absent (countingNext next) (s_n, n) 0 (le_refl 0)⟩

/-- Witness for C4 at a concrete input: `Take(FromSlice([1,2,3]), 2)` yields
`[1, 2]` with exactly 2 upstream pulls, then stays absent. -/
theorem take_yields_prefix_witness :
    ∃ s_n : List Nat, Drains (takeNext (countingNext (@sliceNext Nat)))
        ((([1, 2, 3], 0), (2 : Int))) [1, 2] (((s_n, 2), 0)) ∧
      Absent (takeNext (countingNext (@sliceNext Nat))) (((s_n, 2), 0)) := by
  have h := take_yields_prefix.2 (List Nat) Nat sliceNext [1, 2, 3] [] [1, 2, 3] 2
    (drains_slice [1, 2, 3]) (by decide) (by decide)
  simpa using h


theorem fdrains_of_first_step {σ α : Type} {nextF : Nat → σ → Option (Option α × σ)}
    {s t : σ}
    (hlift : ∀ (f : Nat) (r : Option α × σ), nextF f s = some r → ∃ g : Nat, nextF g t = some r) :
    ∀ {L : List α} {s_f : σ}, FDrains nextF s L s_f → FDrains nextF t L s_f := by
  intro L s_f h
  cases h with
  | nil hex =>
    obtain ⟨f, hf⟩ := hex
    exact FDrains.nil (hlift f _ hf)
  | cons hex rest =>
    obtain ⟨f, hf⟩ := hex
    exact FDrains.cons (hlift f _ hf) rest

theorem flatten_drains_head {σo σi α β : Type} {nextO : NextFn σo β} {mapF : β → σi}
    {nextI : NextFn σi α} :
    ∀ {lh : List α} {h h_e : σi}, Drains nextI h lh h_e →
      ∀ {so : σo} {L : List α} {s_f : σo × Option σi},
        FDrains (flattenNextF nextO mapF nextI) (so, none) L s_f →
        FDrains (flattenNextF nextO mapF nextI) (so, some h) (lh ++ L) s_f := by
  intro lh h h_e hdr
  induction hdr with
  | @nil h0 hx hni =>
    intro so L s_f hL
    refine fdrains_of_first_step ?_ hL
    intro f r hf
    refine ⟨f + 1, ?_⟩
    rw [flattenNextF]
    simp only [hni]
    exact hf
  | @cons h0 a h1 lh' h_e hni _ ih =>
    intro so L s_f hL
    have hstep : flattenNextF nextO mapF nextI 1 (so, some h0) = some (some a, (so, some h1)) := by
      rw [flattenNextF]
      simp only [hni]
    exact FDrains.cons ⟨1, hstep⟩ (ih hL)

theorem flatten_drains_outer {σo σi α β : Type} {nextO : NextFn σo β} {mapF : β → σi}
    {nextI : NextFn σi α} (L : β → List α) (E : β → σi) :
    ∀ {os : List β} {so so_e : σo}, Drains nextO so os so_e →
      (∀ b ∈ os, Drains nextI (mapF b) (L b) (E b)) →
      FDrains (flattenNextF nextO mapF nextI) (so, none) (os.flatMap L) ((so_e, none)) := by
  intro os so so_e hdr
  induction hdr with
  | @nil so0 so_e0 hno =>
    intro _
    refine FDrains.nil ⟨1, ?_⟩
    rw [flattenNextF]
    simp only [hno]
  | @cons so0 b so1 os' so_e0 hno _ ih =>
    intro hin
    have hinb := hin b (by simp)
    have hrest := ih (fun b' hb' => hin b' (by simp [hb']))
    rw [List.flatMap_cons]
    cases hLb : L b with
    | nil =>
      rw [hLb] at hinb
      cases hinb with
      | nil hni =>
        refine fdrains_of_first_step ?_ hrest
        intro f r hf
        refine ⟨f + 1, ?_⟩
        rw [flattenNextF]
        simp only [hno, hni]
        exact hf
    | cons a lb' =>
      rw [hLb] at hinb
      obtain ⟨h1, hni, hrest'⟩ : ∃ h1, nextI (mapF b) = (some a, h1) ∧ Drains nextI h1 lb' (E b) := by
        cases hinb with
        | cons hni hrest' => exact ⟨_, hni, hrest'⟩
      have hstep : flattenNextF nextO mapF nextI 1 (so0, none)
          = some (some a, (so1, some h1)) := by
        rw [flattenNextF]
        simp only [hno, hni]
      exact FDrains.cons ⟨1, hstep⟩ (flatten_drains_head hrest' hrest)

theorem flattenNextF_head_none {σo σi α β : Type} {nextO : NextFn σo β} {mapF : β → σi}
    {nextI : NextFn σi α} {f : Nat} {so : σo} {h : σi} {st' : σo × Option σi}
    (hf : flattenNextF nextO mapF nextI f (so, some h) = some (none, st')) :
    (nextI h).1 = none := by
  cases f with
  | zero => simp [flattenNextF] at hf
  | succ f =>
    rw [flattenNextF] at hf
    rcases hni : nextI h with ⟨oa, h'⟩
    cases oa with
    | none => rfl
    | some a =>
      simp only [hni] at hf
      simp at hf

/-- C5: `Flatten` yields the concatenation, in order, of the inner
iterators obtained from each outer element (also when a currently-active
inner iterator exists from partial consumption, whose remainder comes
first); it reports absent only when the outer iterator just reported
absent, no active inner remains, and any active inner at call time had
reported absent; over an empty outer iterator it is immediately exhausted
on the first call. -/
theorem flatten_concatenates :
    (∀ (σo σi α β : Type) (nextO : NextFn σo β) (mapF : β → σi) (nextI : NextFn σi α)
      (L : β → List α) (E : β → σi) (os : List β) (so so_e : σo),
      Drains nextO so os so_e →
      (∀ b ∈ os, Drains nextI (mapF b) (L b) (E b)) →
      FDrains (flattenNextF nextO mapF nextI) (so, none) (os.flatMap L) ((so_e, none)) ∧
      (∀ (h : σi) (lh : List α) (h_e : σi), Drains nextI h lh h_e →
        FDrains (flattenNextF nextO mapF nextI) (so, some h) (lh ++ os.flatMap L)
          ((so_e, none)))) ∧
    (∀ (σo σi α β : Type) (nextO : NextFn σo β) (mapF : β → σi) (nextI : NextFn σi α)
      (f : Nat) (st st' : σo × Option σi),
      flattenNextF nextO mapF nextI f st = some (none, st') →
      st'.2 = none ∧ ∃ so0 : σo, nextO so0 = (none, st'.1)) ∧
    (∀ (σo σi α β : Type) (nextO : NextFn σo β) (mapF : β → σi) (nextI : NextFn σi α)
      (f : Nat) (so : σo) (h : σi) (st' : σo × Option σi),
      flattenNextF nextO mapF nextI f (so, some h) = some (none, st') →
      (nextI h).1 = none) ∧
    (∀ (σo σi α β : Type) (nextO : NextFn σo β) (mapF : β → σi) (nextI : NextFn σi α)
      (so so' : σo), nextO so = (none, so') →
      flattenNextF nextO mapF nextI 1 (so, none) = some (none, (so', none))) := by
  refine ⟨?_, ?_, ?_, ?_⟩
  · intro σo σi α β nextO mapF nextI L E os so so_e hdr hin
    refine ⟨flatten_drains_outer L E hdr hin, ?_⟩
    intro h lh h_e hh
    exact flatten_drains_head hh (flatten_drains_outer L E hdr hin)
  · intro σo σi α β nextO mapF nextI f st st' hf
    exact flattenNextF_none_last hf
  · intro σo σi α β nextO mapF nextI f so h st' hf
    exact flattenNextF_head_none hf
  · intro σo σi α β nextO mapF nextI so so' hno
    rw [flattenNextF]
    simp only [hno]

/-- Witness for C5: flattening the groups `[[0,1,2],[10,11,12]]` with the
identity group-to-sequence wrap yields `[0,1,2,10,11,12]`. -/
theorem flatten_concatenates_witness :
    FDrains (flattenNextF (@sliceNext (List Int)) id (@sliceNext Int))
      (([[0, 1, 2], [10, 11, 12]], none)) [0, 1, 2, 10, 11, 12] (([], none)) := by
  have h := (flatten_concatenates.1 (List (List Int)) (List Int) Int (List Int)
    sliceNext id sliceNext id (fun _ => []) [[0, 1, 2], [10, 11, 12]]
    [[0, 1, 2], [10, 11, 12]] []
    (drains_slice [[0, 1, 2], [10, 11, 12]])
    (fun b _ => by simpa using drains_slice b)).1
  simpa using h




theorem reduceF_drains {σ α γ : Type} {next : NextFn σ α} {g : γ → α → γ} :
    ∀ {s : σ} {l : List α} {s_e : σ}, Drains next s l s_e →
      ∀ (accum : γ) (f : Nat), l.length + 1 ≤ f →
        reduceF next g accum f s = some (l.foldl g accum, s_e) := by
  intro s l s_e h
  induction h with
  | nil hs =>
    intro accum f hf
    match f, hf with
    | f' + 1, _ => simp [reduceF, hs]
  | cons hs _ ih =>
    intro accum f hf
    match f, hf with
    | f' + 1, hf =>
      rw [reduceF]
      simp only [hs]
      rw [List.foldl_cons]
      exact ih _ f' (by simpa using Nat.lt_succ_iff.mp (Nat.lt_of_lt_of_le (by simp) hf))

theorem foldl_min_spec {α : Type} [LinearOrder α] :
    ∀ (l : List α) (init : α),
      List.foldl (fun accum item => if item < accum then item else accum) init l ∈ init :: l ∧
      ∀ x ∈ init :: l,
        List.foldl (fun accum item => if item < accum then item else accum) init l ≤ x := by
  intro l
  induction l with
  | nil =>
    intro init
    simp
  | cons a l ih =>
    intro init
    rw [List.foldl_cons]
    obtain ⟨hmem, hle⟩ := ih (if a < init then a else init)
    have hacc := hle (if a < init then a else init) (by simp)
    constructor
    · rcases List.mem_cons.mp hmem with h | h
      · rw [h]
        split_ifs with hai <;> simp
      · simp [h]
    · intro x hx
      rcases List.mem_cons.mp hx with rfl | hx2
      · refine le_trans hacc ?_
        split_ifs with hai
        · exact le_of_lt hai
        · exact le_refl x
      rcases List.mem_cons.mp hx2 with rfl | hx3
      · refine le_trans hacc ?_
        split_ifs with hai
        · exact le_refl x
        · exact not_lt.mp hai
      · exact hle x (by simp [hx3])

theorem foldl_max_spec {α : Type} [LinearOrder α] :
    ∀ (l : List α) (init : α),
      List.foldl (fun accum item => if item > accum then item else accum) init l ∈ init :: l ∧
      ∀ x ∈ init :: l,
        x ≤ List.foldl (fun accum item => if item > accum then item else accum) init l := by
  intro l
  induction l with
  | nil =>
    intro init
    simp
  | cons a l ih =>
    intro init
    rw [List.foldl_cons]
    obtain ⟨hmem, hle⟩ := ih (if a > init then a else init)
    have hacc := hle (if a > init then a else init) (by simp)
    constructor
    · rcases List.mem_cons.mp hmem with h | h
      · rw [h]
        split_ifs with hai <;> simp
      · simp [h]
    · intro x hx
      rcases List.mem_cons.mp hx with rfl | hx2
      · refine le_trans ?_ hacc
        split_ifs with hai
        · exact le_of_lt hai
        · exact le_refl x
      rcases List.mem_cons.mp hx2 with rfl | hx3
      · refine le_trans ?_ hacc
        split_ifs with hai
        · exact le_refl x
        · exact not_lt.mp hai
      · exact hle x (by simp [hx3])

/-- C7: `Min` and `Max` over an empty iterator report no result (`ok`
false) rather than a default value; over a non-empty finite iterator they
report, with `ok` true, the least respectively greatest element.  The
cited example: over `[4,5,1,2,3]` they report 1 and 5. -/
theorem min_max_empty_and_extremum :
    (∀ (σ α : Type) [LinearOrder α] (next : NextFn σ α) (s s' : σ) (f : Nat),
      next s = (none, s') →
      minF next f s = some (none, s') ∧ maxF next f s = some (none, s')) ∧
    (∀ (σ α : Type) [LinearOrder α] (next : NextFn σ α) (s s_e : σ) (a : α) (l : List α)
      (f : Nat), Drains next s (a :: l) s_e → l.length + 1 ≤ f →
      (∃ m : α, minF next f s = some (some m, s_e) ∧ m ∈ a :: l ∧ ∀ x ∈ a :: l, m ≤ x) ∧
      (∃ m : α, maxF next f s = some (some m, s_e) ∧ m ∈ a :: l ∧ ∀ x ∈ a :: l, x ≤ m)) ∧
    (minF (@sliceNext Int) 5 [4, 5, 1, 2, 3] = some (some 1, []) ∧
      maxF (@sliceNext Int) 5 [4, 5, 1, 2, 3] = some (some 5, [])) := by
  refine ⟨?_, ?_, by decide, by decide⟩
  · intro σ α inst next s s' f hs
    constructor
    · unfold minF
      rw [hs]
    · unfold maxF
      rw [hs]
  · intro σ α inst next s s_e a l f hdr hf
    obtain ⟨s1, hs, hrest⟩ : ∃ sm, next s = (some a, sm) ∧ Drains next sm l s_e := by
      cases hdr with
      | cons hs hrest => exact ⟨_, hs, hrest⟩
    constructor
    · obtain ⟨hmem, hle⟩ := foldl_min_spec l a
      refine ⟨_, ?_, hmem, hle⟩
      unfold minF
      rw [hs]
      simp only [reduceF_drains hrest a f hf]
    · obtain ⟨hmem, hle⟩ := foldl_max_spec l a
      refine ⟨_, ?_, hmem, hle⟩
      unfold maxF
      rw [hs]
      simp only [reduceF_drains hrest a f hf]

/-- Witness for C7 at a concrete input: `Min` and `Max` over the slice
`[4,5,1,2,3]`, and the empty case over the empty slice. -/
theorem min_max_empty_and_extremum_witness :
    (minF (@sliceNext Int) 3 [] = some (none, []) ∧
      maxF (@sliceNext Int) 3 [] = some (none, [])) ∧
    ∃ m : Int, minF (@sliceNext Int) 5 [4, 5, 1, 2, 3] = some (some m, []) ∧
      m ∈ [4, 5, 1, 2, 3] ∧ ∀ x ∈ ([4, 5, 1, 2, 3] : List Int), m ≤ x := by
  constructor
  · exact min_max_empty_and_extremum.1 (List Int) Int sliceNext [] [] 3 (by decide)
  · have h := (min_max_empty_and_extremum.2.1 (List Int) Int sliceNext [4, 5, 1, 2, 3] []
      4 [5, 1, 2, 3] 5 (drains_slice [4, 5, 1, 2, 3]) (by decide)).1
    simpa using h



theorem toMapF_drains {σ κ ν : Type} [DecidableEq κ] {next : NextFn σ (κ × ν)} :
    ∀ {s : σ} {l : List (κ × ν)} {s_e : σ}, Drains next s l s_e →
      ∀ (m0 : κ → Option ν) (f : Nat), l.length + 1 ≤ f →
        ∃ M : κ → Option ν, toMapF next m0 f s = some (M, s_e) ∧
          ∀ q : κ, M q =
            (l.reverse.find? (fun e => decide (e.1 = q))).elim (m0 q) (fun e => some e.2) := by
  intro s l s_e h
  induction h with
  | nil hs =>
    intro m0 f hf
    match f, hf with
    | f' + 1, _ =>
      refine ⟨m0, by simp [toMapF, hs], ?_⟩
      intro q
      simp
  | @cons s0 e s1 l' s2 hs hrest ih =>
    intro m0 f hf
    match f, hf with
    | f' + 1, hf =>
      obtain ⟨M, hM, hMq⟩ := ih (mapUpd m0 e.1 e.2) f'
        (by simpa using Nat.lt_succ_iff.mp (Nat.lt_of_lt_of_le (by simp) hf))
      refine ⟨M, ?_, ?_⟩
      · rw [toMapF]
        simp only [hs]
        exact hM
      · intro q
        rw [hMq q]
        rw [List.reverse_cons, List.find?_append]
        rcases hfind : l'.reverse.find? (fun e' => decide (e'.1 = q)) with _ | e'
        · rw [hfind]
          by_cases hq : e.1 = q
          · rw [List.find?_cons_of_pos _ (by simpa using hq)]
            simp [mapUpd, hq.symm]
          · rw [List.find?_cons_of_neg _ (by simpa using hq)]
            have hq2 : ¬(q = e.1) := fun hh => hq hh.symm
            simp [mapUpd, hq2]
        · rw [hfind]
          simp

/-- C10: for every finite iterator of key-value entries, `ToMap` builds a
map whose binding for each key `q` is the value of the last entry with key
`q` in encounter order (later entries silently overwrite earlier ones), and
which contains exactly the keys occurring in some entry (`none` for all
others). -/
theorem toMap_last_entry_wins :
    ∀ (σ κ ν : Type) [DecidableEq κ] (next : NextFn σ (κ × ν)) (s s_e : σ)
      (l : List (κ × ν)) (f : Nat),
      Drains next s l s_e → l.length + 1 ≤ f →
      ∃ M : κ → Option ν, toMapF next (fun _ => none) f s = some (M, s_e) ∧
        (∀ q : κ, M q = (l.reverse.find? (fun e => decide (e.1 = q))).map Prod.snd) ∧
        (∀ q : κ, M q = none ↔ ∀ e ∈ l, e.1 ≠ q) := by
  intro σ κ ν inst next s s_e l f hdr hf
  obtain ⟨M, hM, hMq⟩ := toMapF_drains hdr (fun _ => none) f hf
  refine ⟨M, hM, ?_, ?_⟩
  · intro q
    rw [hMq q]
    cases hc : l.reverse.find? (fun e => decide (e.1 = q)) <;> simp [hc]
  · intro q
    rw [hMq q]
    rcases hfind : l.reverse.find? (fun e => decide (e.1 = q)) with _ | e
    · rw [hfind]
      have hnone := List.find?_eq_none.mp hfind
      simp only [Option.elim_none]
      constructor
      · intro _ e he
        have := hnone e (by simpa using he)
        simpa using this
      · intro _
        trivial
    · rw [hfind]
      have hmem := List.find?_some hfind
      have hmem2 : e ∈ l := by
        have := List.mem_of_find?_eq_some hfind
        simpa using this
      simp only [Option.elim_some]
      constructor
      · intro hcontra
        simp at hcontra
      · intro hall
        exact absurd (by simpa using hmem) (hall e hmem2)

/-- Witness for C10 at a concrete input: entries with a duplicate key keep
the last value. -/
theorem toMap_last_entry_wins_witness :
    ∃ M : Nat → Option Nat,
      toMapF (@sliceNext (Nat × Nat)) (fun _ => none) 4 [(1, 10), (2, 20), (1, 30)]
          = some (M, []) ∧
        (∀ q : Nat, M q =
          (([(1, 10), (2, 20), (1, 30)] : List (Nat × Nat)).reverse.find?
              (fun e => decide (e.1 = q))).map Prod.snd) ∧
        (∀ q : Nat, M q = none ↔ ∀ e ∈ ([(1, 10), (2, 20), (1, 30)] : List (Nat × Nat)),
          e.1 ≠ q) :=
  toMap_last_entry_wins (List (Nat × Nat)) Nat Nat sliceNext [(1, 10), (2, 20), (1, 30)] []
    [(1, 10), (2, 20), (1, 30)] 4 (drains_slice _) (by decide)

theorem absent_here {σ α : Type} {next : NextFn σ α} {s : σ} (h : Absent next s) :
    (next s).1 = none := by
  simpa using h 0

theorem drains_absent {σ α : Type} {next : NextFn σ α} (hst : Sticky next) :
    ∀ {s : σ} {l : List α} {s' : σ}, Drains next s l s' → Absent next s' := by
  intro s l s' h
  induction h with
  | nil hs => exact sticky_absent hst (hst _ _ hs)
  | cons _ _ ih => exact ih

theorem mapNext_snd {σ α β : Type} (next : NextFn σ α) (f : α → β) (s : σ) :
    (mapNext next f s).2 = (next s).2 := by
  unfold mapNext
  rcases hns : next s with ⟨o, s'⟩
  cases o <;> rfl

theorem mapNext_fst_none {σ α β : Type} (next : NextFn σ α) (f : α → β) (s : σ)
    (h : (next s).1 = none) : (mapNext next f s).1 = none := by
  unfold mapNext
  rcases hns : next s with ⟨o, s'⟩
  rw [hns] at h
  cases o with
  | none => rfl
  | some a => simp at h

theorem absent_mapNext {σ α β : Type} {next : NextFn σ α} (f : α → β) {s : σ}
    (h : Absent next s) : Absent (mapNext next f) s := by
  have hstep : stepSt (mapNext next f) = stepSt next := by
    funext t
    unfold stepSt
    exact mapNext_snd next f t
  intro k
  rw [hstep]
  exact mapNext_fst_none next f _ (h k)

theorem drains_mapNext {σ α β : Type} {next : NextFn σ α} (f : α → β) :
    ∀ {s : σ} {l : List α} {s_e : σ}, Drains next s l s_e →
      Drains (mapNext next f) s (l.map f) s_e := by
  intro s l s_e h
  induction h with
  | nil hs => exact Drains.nil (by unfold mapNext; rw [hs])
  | cons hs _ ih => exact Drains.cons (by unfold mapNext; rw [hs]) ih

theorem takeCountLoop_drains {σ α : Type} {next : NextFn σ α} :
    ∀ {s : σ} {l : List α} {s_e : σ}, Drains next s l s_e →
      ∀ (num count : Int), count ≤ num →
        (takeCountLoop next num count s).1 = min (count + l.length) num := by
  intro s l s_e h
  induction h with
  | nil hs =>
    intro num count hc
    unfold takeCountLoop
    rw [hs]
    simp
    omega
  | @cons s0 a s1 l' s2 hs _ ih =>
    intro num count hc
    unfold takeCountLoop
    rw [hs]
    by_cases hlt : count < num
    · simp only [dif_pos hlt]
      rw [ih num (count + 1) (by omega)]
      simp
      omega
    · simp only [dif_neg hlt]
      simp
      omega

theorem take_drains_prefix {σ α : Type} {next : NextFn σ α} :
    ∀ (n : Nat) {s : σ} {l : List α} {s_e : σ}, Drains next s l s_e →
      ∃ st_f : σ × Int, Drains (takeNext next) (s, (n : Int)) (l.take n) st_f := by
  intro n
  induction n with
  | zero =>
    intro s l s_e _
    exact ⟨(s, 0), by simpa using Drains.nil (takeNext_nonpos next s 0 (le_refl 0))⟩
  | succ n ih =>
    intro s l s_e hdr
    cases hdr with
    | nil hs =>
      refine ⟨(s_e, ((n + 1 : Nat) : Int)), ?_⟩
      refine Drains.nil ?_
      unfold takeNext
      rw [if_neg (by push_cast; omega)]
      simp only [hs]
    | @cons _ a s1 l' s2 hs hrest =>
      obtain ⟨st_f, hdr'⟩ := ih hrest
      refine ⟨st_f, ?_⟩
      rw [List.take_succ_cons]
      refine Drains.cons ?_ hdr'
      unfold takeNext
      rw [if_neg (by push_cast; omega)]
      simp only [hs]
      have harith : ((n + 1 : Nat) : Int) - 1 = (n : Int) := by push_cast; ring
      rw [harith]

theorem flattenSumCountsF_drains {σo σi : Type} {nextO : NextFn σo σi}
    {cntI : σi → Int × σi} :
    ∀ {so : σo} {os : List σi} {so_e : σo}, Drains nextO so os so_e →
      ∀ (accum : Int) (f : Nat), os.length + 1 ≤ f →
        flattenSumCountsF nextO cntI accum f so
          = some (accum + (os.map (fun h => (cntI h).1)).sum, so_e) := by
  intro so os so_e h
  induction h with
  | nil hs =>
    intro accum f hf
    match f, hf with
    | f' + 1, _ =>
      rw [flattenSumCountsF]
      rw [hs]
      simp
  | cons hs _ ih =>
    intro accum f hf
    match f, hf with
    | f' + 1, hf =>
      rw [flattenSumCountsF]
      rw [hs]
      simp only [ih _ f' (by simpa using Nat.lt_succ_iff.mp (Nat.lt_of_lt_of_le (by simp) hf))]
      simp
      ring

theorem sum_map_length_flatMap {σi α : Type} (L : σi → List α) :
    ∀ os : List σi, ((os.map (fun h => ((L h).length : Int))).sum : Int)
      = ((os.flatMap L).length : Int) := by
  intro os
  induction os with
  | nil => simp
  | cons h os ih =>
    rw [List.map_cons, List.sum_cons, List.flatMap_cons, List.length_append, ih]
    push_cast
    ring

theorem flatDead_step {σo σi α : Type} {nextO : NextFn σo σi} {nextI : NextFn σi α} :
    ∀ {st : σo × Option σi}, FlatDead nextO nextI st → ∀ f : Nat, 2 ≤ f →
      ∃ st' : σo × Option σi, flattenNextF nextO id nextI f st = some (none, st') ∧
        FlatDead nextO nextI st' := by
  intro st hdead f hf
  obtain ⟨ho, hh⟩ := hdead
  rcases st with ⟨so, oh⟩
  have hnO : nextO so = (none, (nextO so).2) := by
    rw [← absent_here ho]
  have hgoal : ∀ g : Nat, 1 ≤ g →
      flattenNextF nextO id nextI g (so, none) = some (none, ((nextO so).2, none)) := by
    intro g hg
    match g, hg with
    | g' + 1, _ =>
      rw [flattenNextF, hnO]
  have hdead' : FlatDead nextO nextI ((nextO so).2, none) := by
    refine ⟨absent_step ho, ?_⟩
    intro h hcontra
    exact Option.noConfusion hcontra
  cases oh with
  | none =>
    exact ⟨((nextO so).2, none), hgoal f (by omega), hdead'⟩
  | some h0 =>
    have hIabs : (nextI h0).1 = none := absent_here (hh h0 rfl)
    rcases hni : nextI h0 with ⟨o, h2⟩
    rw [hni] at hIabs
    cases o with
    | some a => simp at hIabs
    | none =>
      match f, hf with
      | g + 2, _ =>
        refine ⟨((nextO so).2, none), ?_, hdead'⟩
        rw [flattenNextF]
        simp only [hni]
        exact hgoal (g + 1) (by omega)

theorem flattenCountF_eq {σo σi : Type} (nextO : NextFn σo σi) (cntI : σi → Int × σi)
    (f : Nat) (so : σo) (oh : Option σi) :
    flattenCountF nextO cntI f (so, oh)
      = match flattenSumCountsF nextO cntI 0 f so with
        | none => none
        | some (c, so') =>
          match oh with
          | none => some (c, (so', none))
          | some h => some (c + (cntI h).1, (so', some (cntI h).2)) := rfl

/-- C1 (amended): each `Counter` implementation (`Map` over any upstream,
`Flatten`, `Take`) returns from `Count` exactly the number of elements that
pulling `Next` to exhaustion on an equally pre-consumed iterator in the
same state would have yielded, and leaves the iterator permanently absent
afterwards — also after a prefix was already pulled (the statements hold at
an arbitrary reachable state: any remaining upstream drain, any active
flatten head, any remaining take allowance).  The upstream `Count`
functions consulted by the dynamic `Counter` dispatch are abstracted and
assumed to satisfy the `Counter` contract themselves.  Amendment forced by
the counterexample: for `Take` the remaining allowance must be nonnegative;
with a negative allowance `Count` returns the negative allowance itself
while a drain yields 0 elements. -/
theorem counter_count_equals_drain :
    (∀ (σ α β : Type) (next : NextFn σ α) (fm : α → β) (upCount : σ → Int × σ)
      (s s_e : σ) (l : List α),
      Drains next s l s_e → (upCount s).1 = (l.length : Int) → Absent next (upCount s).2 →
      Drains (mapNext next fm) s (l.map fm) s_e ∧
      (mapCount upCount s).1 = ((l.map fm).length : Int) ∧
      Absent (mapNext next fm) ((mapCount upCount s).2)) ∧
    (∀ (σo σi α : Type) (nextO : NextFn σo σi) (nextI : NextFn σi α)
      (cntI : σi → Int × σi) (L : σi → List α) (E : σi → σi)
      (os : List σi) (so so_e : σo),
      Drains nextO so os so_e →
      Sticky nextO →
      (∀ h : σi, Drains nextI h (L h) (E h)) →
      (∀ h : σi, (cntI h).1 = ((L h).length : Int) ∧ Absent nextI (cntI h).2) →
      (FDrains (flattenNextF nextO id nextI) (so, none) (os.flatMap L) ((so_e, none)) ∧
        ∃ st' : σo × Option σi, flattenCountF nextO cntI (os.length + 1) (so, none)
            = some (((os.flatMap L).length : Int), st') ∧ FlatDead nextO nextI st') ∧
      (∀ h0 : σi,
        FDrains (flattenNextF nextO id nextI) (so, some h0) (L h0 ++ os.flatMap L)
            ((so_e, none)) ∧
        ∃ st' : σo × Option σi, flattenCountF nextO cntI (os.length + 1) (so, some h0)
            = some (((L h0 ++ os.flatMap L).length : Int), st') ∧ FlatDead nextO nextI st')) ∧
    (∀ (σo σi α : Type) (nextO : NextFn σo σi) (nextI : NextFn σi α) (st : σo × Option σi),
      FlatDead nextO nextI st → ∀ f : Nat, 2 ≤ f →
      ∃ st' : σo × Option σi, flattenNextF nextO id nextI f st = some (none, st') ∧
        FlatDead nextO nextI st') ∧
    (∀ (σ α : Type) (next : NextFn σ α) (s s_e : σ) (l : List α) (n : Nat),
      Drains next s l s_e →
      (takeCountFallback next (s, (n : Int))).1 = ((l.take n).length : Int) ∧
      (∃ st_f : σ × Int, Drains (takeNext next) (s, (n : Int)) (l.take n) st_f) ∧
      Absent (takeNext next) ((takeCountFallback next (s, (n : Int))).2)) ∧
    (∀ (σ α : Type) (next : NextFn σ α) (upCount : σ → Int × σ) (s s_e : σ) (l : List α)
      (n : Nat),
      Drains next s l s_e → (upCount s).1 = (l.length : Int) →
      (takeCountCounter upCount (s, (n : Int))).1 = ((l.take n).length : Int) ∧
      (∃ st_f : σ × Int, Drains (takeNext next) (s, (n : Int)) (l.take n) st_f) ∧
      Absent (takeNext next) ((takeCountCounter upCount (s, (n : Int))).2)) := by
  refine ⟨?_, ?_, ?_, ?_, ?_⟩
  · intro σ α β next fm upCount s s_e l hdr hcnt habs
    refine ⟨drains_mapNext fm hdr, ?_, ?_⟩
    · simp only [mapCount, List.length_map]
      exact hcnt
    · exact absent_mapNext fm habs
  · intro σo σi α nextO nextI cntI L E os so so_e hdr hstO hL hcnt
    have hsum := @flattenSumCountsF_drains σo σi nextO cntI so os so_e hdr 0
      (os.length + 1) (le_refl _)
    have hval : (os.map (fun h => (cntI h).1)).sum = ((os.flatMap L).length : Int) := by
      have hmc : os.map (fun h => (cntI h).1) = os.map (fun h => ((L h).length : Int)) :=
        List.map_congr_left (fun h _ => (hcnt h).1)
      rw [hmc, sum_map_length_flatMap]
    have habsO : Absent nextO so_e := drains_absent hstO hdr
    constructor
    · refine ⟨flatten_drains_outer L E hdr (fun b _ => hL b), (so_e, none), ?_, ?_⟩
      · rw [flattenCountF_eq, hsum]
        simp [hval]
      · exact ⟨habsO, fun h hcon => Option.noConfusion hcon⟩
    · intro h0
      refine ⟨flatten_drains_head (hL h0) (flatten_drains_outer L E hdr (fun b _ => hL b)),
        (so_e, some (cntI h0).2), ?_, ?_⟩
      · rw [flattenCountF_eq, hsum]
        simp only [Option.some.injEq, Prod.mk.injEq, and_true]
        rw [hval, (hcnt h0).1, List.length_append]
        push_cast
        ring
      · refine ⟨habsO, ?_⟩
        intro h hcon
        injection hcon with hh
        rw [← hh]
        exact (hcnt h0).2
  · intro σo σi α nextO nextI st hdead f hf
    exact flatDead_step hdead f hf
  · intro σ α next s s_e l n hdr
    have hloop := takeCountLoop_drains hdr ((n : Nat) : Int) 0 (Int.natCast_nonneg n)
    refine ⟨?_, take_drains_prefix n hdr, ?_⟩
    · simp only [takeCountFallback]
      rw [hloop, List.length_take]
      split_ifs with hcl
      · push_cast at hcl ⊢
        omega
      · push_cast at hcl ⊢
        omega
    · exact takeNext_nonpos_absent next ((takeCountLoop next ((n : Nat) : Int) 0 s).2) 0
        (le_refl 0)
  · intro σ α next upCount s s_e l n hdr hcnt
    refine ⟨?_, take_drains_prefix n hdr, ?_⟩
    · simp only [takeCountCounter]
      rw [hcnt, List.length_take]
      split_ifs with hcl
      · push_cast at hcl ⊢
        omega
      · push_cast at hcl ⊢
        omega
    · exact takeNext_nonpos_absent next ((upCount s).2) 0 (le_refl 0)

/-- Counterexample to C1 as stated: a `Take` iterator with remaining
allowance `-1` (a `Counter` implementation) returns `-1` from `Count`,
while pulling that same iterator to exhaustion yields 0 elements. -/
theorem counter_count_equals_drain_counterexample :
    (takeCountFallback (@sliceNext Int) (([], -1))).1 = -1 ∧
    Drains (takeNext (@sliceNext Int)) (([], -1)) [] (([], -1)) ∧
    (-1 : Int) ≠ ((([] : List Int).length : Nat) : Int) := by
  refine ⟨?_, Drains.nil (by decide), by decide⟩
  rw [takeCountFallback, takeCountLoop]
  simp [sliceNext]

/-- Witness for C1 at a concrete input: `Map` over `FromSlice([1,2])` with
an upstream count function satisfying the `Counter` contract. -/
theorem counter_count_equals_drain_witness :
    Drains (mapNext (@sliceNext Int) (fun n => n * 2)) [1, 2] [2, 4] [] ∧
    (mapCount (fun s : List Int => ((s.length : Int), ([] : List Int))) [1, 2]).1 = 2 ∧
    Absent (mapNext (@sliceNext Int) (fun n => n * 2))
      ((mapCount (fun s : List Int => ((s.length : Int), ([] : List Int))) [1, 2]).2) := by
  have h := counter_count_equals_drain.1 (List Int) Int Int sliceNext (fun n => n * 2)
    (fun s : List Int => ((s.length : Int), ([] : List Int))) [1, 2] [] [1, 2]
    (drains_slice [1, 2]) (by decide)
    (sticky_absent sticky_sliceNext (by decide))
  simpa using h

/-- C2, evaluated at the failing input: `Take(upstream, 1).Count` over a
non-`Counter` upstream holding `[10, 20]`.  The fallback loop pulls the
upstream twice (the instrumented pull counter reaches 2 and the upstream is
left empty) even though the specified bound is `min(upstream size, n) = 1`;
the returned count, 1, is nevertheless correct.  The loop checks the
allowance only after each pull, so it always pulls one element beyond the
allowance when the upstream has one. -/
theorem takeCount_fallback_overpulls :
    takeCountFallback (countingNext (@sliceNext Int)) ((([10, 20], 0), 1))
        = (1, ((([], 2), 0))) ∧
    ¬((2 : Nat) ≤ min 2 1) := by
  constructor
  · simp [takeCountFallback, takeCountLoop, countingNext, sliceNext]
  · decide

end GoIter
